import Mathlib

/-!
Verification development for the composable experiment-design /
circuit-generation / result-reconstruction layer of pyGSTi, as described by
its specification.  The repository's files only contain tutorial notebooks
that call this layer, so every operation below is modelled from the
specification's words; each doc comment names what it models.
-/

namespace PyGSTi

/-- Qubit labels, e.g. "Q0". -/
abbrev Qubit := String

/-- Modelled from the spec (glossary, data model section 3): a gate
application, a native gate name applied to an ordered tuple of qubits. -/
structure Gate where
  name : String
  qubits : List Qubit
deriving DecidableEq

/-- Modelled from the spec (data model section 3): a layer is a set of gate
applications at one timestep. -/
abbrev Layer := Finset Gate

/-- Modelled from the spec (data model section 3): a circuit is an ordered
sequence of layers over a fixed qubit subset. -/
structure Circuit where
  qubits : Finset Qubit
  layers : List Layer
deriving DecidableEq

/-- Layer invariant of the data model: every gate in the circuit acts on at
least one qubit, and only on qubits of the circuit's own subset. -/
def Circuit.wf (c : Circuit) : Prop :=
  ∀ L ∈ c.layers, ∀ g ∈ L, g.qubits ≠ [] ∧ g.qubits.toFinset ⊆ c.qubits

instance (c : Circuit) : Decidable c.wf := by
  unfold Circuit.wf; infer_instance

/-- Modelled from the spec (section 4.4): pad a layer list with idle (empty)
layers up to `m` layers. -/
def padLayers (ls : List Layer) (m : Nat) : List Layer :=
  ls ++ List.replicate (m - ls.length) ∅

/-- Modelled from the spec (section 4.4): merge two circuits on disjoint
qubit subsets; each is padded with idle layers up to the maximum layer count
and layers are combined by set union. -/
def mergeCircuit (c1 c2 : Circuit) : Circuit :=
  let m := max c1.layers.length c2.layers.length
  ⟨c1.qubits ∪ c2.qubits,
   List.zipWith (· ∪ ·) (padLayers c1.layers m) (padLayers c2.layers m)⟩

/-- Restriction of a layer to the gates acting only on qubits of `S`. -/
def restrictLayer (L : Layer) (S : Finset Qubit) : Layer :=
  L.filter (fun g => g.qubits.toFinset ⊆ S)

/-- Restriction of a circuit to the qubit subset `S`, keeping only the first
`n` layers (ignoring idle padding layers beyond `n`). -/
def Circuit.restrict (c : Circuit) (S : Finset Qubit) (n : Nat) : Circuit :=
  ⟨S, (c.layers.take n).map (fun L => restrictLayer L S)⟩

/-- Measurement outcome: an assignment of a bit to each measured qubit. -/
abbrev Outcome := List (Qubit × Bool)

/-- Outcome counts attached to one circuit. -/
abbrev Counts := List (Outcome × Nat)

/-- Modelled from the spec (section 4.3): a leaf experiment design holds its
qubit subset (an ordered label tuple, as in the tutorials), its depth list,
its sampled circuits (indexed by composition index) with their target
outcomes, and the recorded analysis-protocol metadata. -/
structure Leaf where
  qubits : List Qubit
  depths : List Nat
  circuits : List Circuit
  targets : List Outcome
  protocols : List String
deriving DecidableEq

/-- Well-formedness of a leaf: each of its circuits is over exactly the
leaf's qubit subset and satisfies the layer invariant. -/
def Leaf.wf (A : Leaf) : Prop :=
  ∀ c ∈ A.circuits, c.qubits = A.qubits.toFinset ∧ c.wf

instance (A : Leaf) : Decidable A.wf := by
  unfold Leaf.wf; infer_instance

/-- Modelled from the spec (section 7): configuration errors raised
immediately at construction. -/
inductive ConfigError where
  | nonDisjointQubits : ConfigError
  | duplicateKeys : ConfigError
deriving DecidableEq

/-- Modelled from the spec (section 4.4): index-wise merge of the circuit
lists of a collection of children. -/
def simulMergeList : List Leaf → List Circuit
  | [] => []
  | [l] => l.circuits
  | l :: rest => List.zipWith mergeCircuit l.circuits (simulMergeList rest)

/-- Key of a child inside a Simultaneous design: its qubit-subset tuple. -/
def simKey (l : Leaf) : List Qubit :=
  l.qubits

instance (a b : List Qubit) : Decidable (a.Disjoint b) :=
  decidable_of_iff (∀ x ∈ a, x ∉ b) Iff.rfl

/-- Modelled from the spec (section 4.4): a Simultaneous design keeps its
children keyed by their qubit subsets, together with the merged circuits
that actually run. -/
structure SimDesign where
  children : List (List Qubit × Leaf)
  merged : List Circuit
deriving DecidableEq

/-- Modelled from the spec (sections 4.4 and 7): constructing a Simultaneous
design checks that the children's qubit subsets are pairwise disjoint, and
fails with a ConfigurationError otherwise; no partial object is returned. -/
def mkSimultaneous (ls : List Leaf) : Except ConfigError SimDesign :=
  if (ls.map Leaf.qubits).Pairwise List.Disjoint then
    .ok ⟨ls.map (fun l => (simKey l, l)), simulMergeList ls⟩
  else .error .nonDisjointQubits

/-- Modelled from the spec (section 4.5): a child of a Combined design is a
leaf or a Simultaneous design. -/
inductive SubDesign where
  | leaf : Leaf → SubDesign
  | simul : SimDesign → SubDesign
deriving DecidableEq

/-- The circuits a child contributes to execution: a leaf's own sampled
circuits, a Simultaneous child's merged circuits. -/
def SubDesign.circuits : SubDesign → List Circuit
  | .leaf l => l.circuits
  | .simul s => s.merged

/-- Modelled from the spec (section 4.5): a Combined design maps unique
string keys to child designs. -/
structure CombinedDesign where
  children : List (String × SubDesign)
deriving DecidableEq

/-- Modelled from the spec (sections 4.5 and 7): duplicate keys in a
Combined composition are a configuration error raised at construction. -/
def mkCombined (children : List (String × SubDesign)) :
    Except ConfigError CombinedDesign :=
  if (children.map Prod.fst).Nodup then .ok ⟨children⟩ else .error .duplicateKeys

/-- Modelled from the spec (section 4.5): the deduplicated flat circuit pool
of a Combined design; identical circuit content is stored once even when
sampled by two different children. -/
def CombinedDesign.pool (d : CombinedDesign) : List Circuit :=
  (d.children.flatMap (fun kv => kv.2.circuits)).dedup

/-- Restriction of an outcome to the qubits of one subset. -/
def restrictOutcome (o : Outcome) (S : List Qubit) : Outcome :=
  o.filter (fun qb => S.contains qb.1)

/-- Add `n` to the count recorded for outcome `o`. -/
def addCount : Counts → Outcome → Nat → Counts
  | [], o, n => [(o, n)]
  | (o2, n2) :: rest, o, n =>
    if o2 = o then (o2, n2 + n) :: rest else (o2, n2) :: addCount rest o n

/-- Modelled from the spec (section 4.4): the marginal outcome counts for
one child's qubit subset, obtained by summing counts over all measurement
outcomes on the other subsets' qubits; no post-selection is applied. -/
def marginalize (cnts : Counts) (S : List Qubit) : Counts :=
  cnts.foldl (fun acc p => addCount acc (restrictOutcome p.1 S) p.2) []

/-- Fraction of the recorded counts landing on the target outcome. -/
def successFrac (target : Outcome) (cnts : Counts) : ℚ :=
  let tot := (cnts.map Prod.snd).sum
  if tot = 0 then 0
  else (((cnts.filter (fun p => decide (p.1 = target))).map Prod.snd).sum : ℚ) / tot

/-- Modelled from the spec (sections 4.3 and 4.6): the protocol-fit estimate
recorded for a leaf, the mean success fraction against the per-circuit
targets. -/
def fitEstimate (targets : List Outcome) (cc : List (Circuit × Counts)) : ℚ :=
  let fracs := List.zipWith (fun t p => successFrac t p.2) targets cc
  if fracs.length = 0 then 0 else fracs.sum / fracs.length

/-- A key in the Results tree: a string at a Combined level, a qubit-subset
tuple at a Simultaneous level. -/
inductive ResKey where
  | str : String → ResKey
  | qs : List Qubit → ResKey
deriving DecidableEq

/-- Modelled from the spec (sections 4.6 and 7): the missing-data error
names the first circuit lacking outcome counts and its owning leaf's key
path. -/
structure MissingDataError where
  path : List ResKey
  circuit : Circuit
deriving DecidableEq

/-- A Results leaf: raw per-circuit outcome counts and protocol-fit
estimates for each recorded protocol. -/
structure LeafResults where
  counts : List (Circuit × Counts)
  fits : List (String × ℚ)
deriving DecidableEq

/-- Modelled from the spec (section 4.6): the Results tree mirrors the
composition tree's key structure. -/
inductive ResultsNode where
  | leaf : LeafResults → ResultsNode
  | node : List (ResKey × ResultsNode) → ResultsNode

/-- Keys of the top level of a Results node. -/
def ResultsNode.keys : ResultsNode → List ResKey
  | .leaf _ => []
  | .node kids => kids.map Prod.fst

/-- Key-indexed access to a subtree of a Results node. -/
def ResultsNode.child? : ResultsNode → ResKey → Option ResultsNode
  | .leaf _, _ => none
  | .node kids, k => (kids.find? (fun kv => decide (kv.1 = k))).map Prod.snd

/-- Modelled from the spec (section 4.6): attach outcome counts to each
circuit of a list in order, failing with a MissingDataError naming the first
circuit lacking data together with the owning key path. -/
def collectCounts (path : List ResKey) (data : Circuit → Option Counts) :
    List Circuit → Except MissingDataError (List (Circuit × Counts))
  | [] => .ok []
  | c :: rest =>
    match data c with
    | none => .error ⟨path, c⟩
    | some cnt => (collectCounts path data rest).map (fun r => (c, cnt) :: r)

/-- Per-child counts inside a Simultaneous design: each merged circuit's
counts marginalized onto the child's qubit subset. -/
def simulChildCounts (cc : List (Circuit × Counts)) (key : List Qubit)
    (l : Leaf) : List (Circuit × Counts) :=
  List.zipWith (fun c p => (c, marginalize p.2 key)) l.circuits cc

/-- Results leaf for a leaf design from its attached counts. -/
def mkLeafResults (l : Leaf) (cc : List (Circuit × Counts)) : LeafResults :=
  ⟨cc, l.protocols.map (fun p => (p, fitEstimate l.targets cc))⟩

/-- Modelled from the spec (section 4.6): results of one child of a Combined
design; a Simultaneous child yields a node keyed by qubit-subset tuples,
with per-child counts derived by marginalization before protocol fitting. -/
def SubDesign.results (data : Circuit → Option Counts) (path : List ResKey) :
    SubDesign → Except MissingDataError ResultsNode
  | .leaf l =>
    (collectCounts path data l.circuits).map (fun cc => .leaf (mkLeafResults l cc))
  | .simul s =>
    (collectCounts path data s.merged).map (fun cc =>
      .node (s.children.map (fun kl =>
        (ResKey.qs kl.1, .leaf (mkLeafResults kl.2 (simulChildCounts cc kl.1 kl.2))))))

/-- Results of the children of a Combined design, walked in order; the
first failure is surfaced unchanged. -/
def combineResults (data : Circuit → Option Counts) :
    List (String × SubDesign) → Except MissingDataError (List (ResKey × ResultsNode))
  | [] => .ok []
  | (k, sd) :: rest =>
    match sd.results data [ResKey.str k] with
    | .error e => .error e
    | .ok r =>
      match combineResults data rest with
      | .error e => .error e
      | .ok rs => .ok ((ResKey.str k, r) :: rs)

/-- Modelled from the spec (section 4.6): the Results Reconstructor; walks
the composition tree and produces a Results tree with identical key
structure, requiring every circuit in the pool to have outcome counts. -/
def CombinedDesign.results (d : CombinedDesign) (data : Circuit → Option Counts) :
    Except MissingDataError ResultsNode :=
  (combineResults data d.children).map .node

/-- The flat pool in traversal order, each circuit tagged with its owning
child's key path. -/
def CombinedDesign.poolPaths (d : CombinedDesign) : List (List ResKey × Circuit) :=
  d.children.flatMap (fun kv => kv.2.circuits.map (fun c => ([ResKey.str kv.1], c)))

/-- PRNG modelled as a linear congruential generator; all randomness in the
model is an explicit function of the seed (design note: explicit seed
threading, never ambient state). -/
def lcg (s : Nat) : Nat := (s * 1103515245 + 12345) % 2147483648

/-- The `i`-th pseudo-random draw from a seed. -/
def rnd (seed i : Nat) : Nat := lcg (seed + i)

/-- Modelled from the spec (section 4.1): available qubits, native
single-qubit gate names, and the connectivity (availability) of the
two-qubit gate. -/
structure ProcSpec where
  qubits : List Qubit
  oneQGates : List String
  edges : List (Qubit × Qubit)
deriving DecidableEq

/-- Modelled from the spec (section 7): a sampling error carries the
infeasible subset and requested density. -/
structure SamplingError where
  subset : List Qubit
  density : ℚ
deriving DecidableEq

/-- The availability-graph edges lying inside a qubit subset. -/
def internalEdges (ps : ProcSpec) (subset : List Qubit) : List (Qubit × Qubit) :=
  ps.edges.filter (fun e => subset.contains e.1 && subset.contains e.2)

/-- Seed-dependent rotation of the candidate edge list. -/
def rotateBy (l : List (Qubit × Qubit)) (k : Nat) : List (Qubit × Qubit) :=
  l.drop (k % (l.length + 1)) ++ l.take (k % (l.length + 1))

/-- Modelled from the spec (section 4.2): randomized greedy matching; scan
the seed-rotated edge list, keeping an edge whenever neither endpoint is
already used. -/
def greedyMatch : List (Qubit × Qubit) → List Qubit → List (Qubit × Qubit)
  | [], _ => []
  | e :: rest, used =>
    if used.contains e.1 || used.contains e.2 then greedyMatch rest used
    else e :: greedyMatch rest (e.1 :: e.2 :: used)

/-- Each matched edge is kept with probability set by the requested mean
two-qubit-gate density; a density of zero keeps no edge. -/
def selectEdges (matched : List (Qubit × Qubit)) (density : ℚ) (seed : Nat) :
    List (Qubit × Qubit) :=
  matched.enum.filterMap (fun je =>
    if ((rnd seed je.1 % 1000 : Nat) : ℚ) < density * 1000 then some je.2 else none)

/-- A pseudo-randomly chosen native single-qubit gate name. -/
def oneQgateOn (ps : ProcSpec) (seed : Nat) : String :=
  ps.oneQGates.getD (rnd seed 0 % max 1 ps.oneQGates.length) "Gi"

/-- Modelled from the spec (section 4.2, direct/edge-based sampling): one
layer; a randomized greedy matching of available edges supplies two-qubit
gates up to the requested density, and every unselected qubit receives a
pseudo-randomly chosen single-qubit gate. -/
def edgegrabLayer (ps : ProcSpec) (subset : List Qubit) (density : ℚ)
    (seed : Nat) : Layer :=
  let sel := selectEdges (greedyMatch (rotateBy (internalEdges ps subset) seed) [])
    density seed
  let used := sel.flatMap (fun e => [e.1, e.2])
  let singles := subset.filter (fun q => !used.contains q)
  (sel.map (fun e => Gate.mk "Gcnot" [e.1, e.2])).toFinset ∪
    (singles.enum.map (fun jq => Gate.mk (oneQgateOn ps (seed + jq.1)) [jq.2])).toFinset

/-- Modelled from the spec (sections 4.2 and 7): the direct/edge-based
(edgegrab) sampler; builds `depth` layers, and signals a SamplingError
exactly when a strictly positive two-qubit density is requested on a subset
with no internal connectivity. -/
def edgegrab (ps : ProcSpec) (depth : Nat) (subset : List Qubit) (density : ℚ)
    (seed : Nat) : Except SamplingError Circuit :=
  if 0 < density ∧ internalEdges ps subset = [] then .error ⟨subset, density⟩
  else .ok ⟨subset.toFinset,
    (List.range depth).map (fun t => edgegrabLayer ps subset density (rnd seed t))⟩

/-- Modelled from the spec (section 4.2): Clifford-group sampling.  The
n-qubit Clifford group is modelled as an arbitrary group `G` and the
uniformly random draws as an arbitrary stream of group elements.  With the
randomize-output flag off the sampler appends the inverse of the running
product of the first `d+1` draws; with it on, the last element is offset by
a further random draw, randomizing the target. -/
def cliffordRBSample {G : Type} [Group G] (draw : Nat → G) (d : Nat)
    (randomizeout : Bool) : List G :=
  let randoms := (List.range (d + 1)).map draw
  if randomizeout then randoms ++ [randoms.prod⁻¹ * draw (d + 1)]
  else randoms ++ [randoms.prod⁻¹]

/-- The sampler kinds exercised by the tutorials. -/
inductive SamplerKind where
  | edgegrab : SamplerKind
  | clifford : SamplerKind
deriving DecidableEq

/-- The full input tuple of a sampler call. -/
structure SamplerInput where
  ps : ProcSpec
  depth : Nat
  subset : List Qubit
  kind : SamplerKind
  params : List ℚ
  seed : Nat
deriving DecidableEq

/-- The standard (non-randomized) target: the all-zeros bit-string. -/
def allZerosTarget (subset : List Qubit) : Outcome :=
  subset.map (fun q => (q, false))

/-- Modelled from the spec (section 4.2): the circuit sampler as a pure
function of (processor spec, depth, qubit subset, sampler kind, sampler
parameters, seed), returning a circuit and its target outcome. -/
def sampleCircuit (inp : SamplerInput) : Except SamplingError (Circuit × Outcome) :=
  match inp.kind with
  | .edgegrab =>
    (edgegrab inp.ps inp.depth inp.subset (inp.params.getD 0 0) inp.seed).map
      (fun c => (c, allZerosTarget inp.subset))
  | .clifford =>
    .ok (⟨inp.subset.toFinset,
          (List.range (inp.depth + 2)).map (fun t =>
            {Gate.mk ("Gc" ++ toString (rnd inp.seed t % 24)) inp.subset})⟩,
         allZerosTarget inp.subset)

/-- A compiled form of a Clifford element: its list of native gates. -/
abbrev Compilation := List Gate

/-- Modelled from the spec (sections 4.2 and 9): the default comparison key
selects the compilation with the fewest native gates. -/
def defaultCompileKey (c : Compilation) : Nat := c.length

/-- Modelled from the spec (section 4.2): with an iteration count parameter,
run that many independent randomized compilations of the element and keep
the best one according to the pluggable comparison key. -/
def compileBest (compileOnce : Nat → Compilation) (citerations : Nat)
    (key : Compilation → Nat) : Compilation :=
  match (List.range citerations).map compileOnce with
  | [] => compileOnce 0
  | c :: rest => rest.foldl (fun best c2 => if key c2 < key best then c2 else best) c

/-- A state-space label: an integer or a string. -/
inductive SSLabel where
  | int : Int → SSLabel
  | str : String → SSLabel
deriving DecidableEq

/-- Modelled from the StateSpaceLabels tutorial: integer labels and labels
beginning with 'Q' default to dimension 2, labels beginning with 'L'
default to dimension 1, and other labels have no default. -/
def defaultDim : SSLabel → Option Nat
  | .int _ => some 2
  | .str s =>
    if s.data.head? = some 'Q' then some 2
    else if s.data.head? = some 'L' then some 1
    else none

/-- The default-dimension rule exactly as the claim sentence states it:
integers and 'Q'-labels are assigned dimension 2, 'L'-labels dimension 1. -/
def specDefaultDim : SSLabel → Nat
  | .int _ => 2
  | .str s =>
    if s.data.head? = some 'Q' then 2
    else if s.data.head? = some 'L' then 1
    else 0

/-- The labels argument of the StateSpaceLabels constructor: a flat tuple or
a list of tensor-product blocks. -/
inductive LabelsArg where
  | flat : List SSLabel → LabelsArg
  | nested : List (List SSLabel) → LabelsArg
deriving DecidableEq

/-- A flat label tuple denotes a single tensor product block. -/
def LabelsArg.toBlocks : LabelsArg → List (List SSLabel)
  | .flat ls => [ls]
  | .nested bs => bs

/-- The structure of a state space: labels per tensor-product block and the
dimension of each label. -/
structure StateSpaceLabels where
  labels : List (List SSLabel)
  labeldims : List (List Nat)
deriving DecidableEq

/-- Modelled from the StateSpaceLabels tutorial: construction from labels
and optional dimensions; when the dimensions are omitted every label must
have a default dimension, and the defaults are applied. -/
def mkStateSpaceLabels (arg : LabelsArg) (dims : Option (List (List Nat))) :
    Option StateSpaceLabels :=
  let blocks := arg.toBlocks
  match dims with
  | some ds =>
    if ds.map List.length = blocks.map List.length then some ⟨blocks, ds⟩ else none
  | none =>
    if blocks.all (fun b => b.all (fun l => (defaultDim l).isSome)) then
      some ⟨blocks, blocks.map (fun b => b.map (fun l => (defaultDim l).getD 0))⟩
    else none

/-- Concrete single-qubit leaf sampled for the examples. -/
def oneQleaf (q : Qubit) : Leaf :=
  ⟨[q], [0, 2], [⟨{q}, [{⟨"Gc3", [q]⟩}]⟩], [[(q, false)]], ["RB"]⟩

/-- Concrete leaf over a list of qubits for the examples. -/
def rbLeaf (qs : List Qubit) (g : String) : Leaf :=
  ⟨qs, [0, 2], [⟨qs.toFinset, [(qs.map (fun q => Gate.mk g [q])).toFinset]⟩],
   [qs.map (fun q => (q, false))], ["RB"]⟩

/-- Concrete two-layer leaf on qubit Q0 used by the C1 witness. -/
def leafAEx : Leaf :=
  ⟨["Q0"], [0, 2], [⟨{"Q0"}, [{⟨"Gc3", ["Q0"]⟩}, {⟨"Gc5", ["Q0"]⟩}]⟩],
   [[("Q0", false)]], ["RB"]⟩

/-- Concrete three-layer leaf on the disjoint qubit Q1. -/
def leafBEx : Leaf :=
  ⟨["Q1"], [0, 2],
   [⟨{"Q1"}, [{⟨"Gc1", ["Q1"]⟩}, {⟨"Gc2", ["Q1"]⟩}, {⟨"Gc7", ["Q1"]⟩}]⟩],
   [[("Q1", false)]], ["RB"]⟩

/-- The four single-qubit leaves of the simultaneous 1-qubit RB example. -/
def oneQleaves : List Leaf :=
  [oneQleaf "Q0", oneQleaf "Q1", oneQleaf "Q2", oneQleaf "Q3"]

/-- The Simultaneous design over the four single-qubit subsets. -/
def srbSim : SimDesign :=
  ⟨oneQleaves.map (fun l => (simKey l, l)), simulMergeList oneQleaves⟩

/-- Children of the Combined design of the multi-RB tutorial. -/
def combChildrenEx : List (String × SubDesign) :=
  [("1Q-RB", .leaf (rbLeaf ["Q0"] "Gc1")),
   ("2Q-RB", .leaf (rbLeaf ["Q0", "Q1"] "Gc2")),
   ("3Q-RB", .leaf (rbLeaf ["Q0", "Q1", "Q2"] "Gc3")),
   ("4Q-RB", .leaf (rbLeaf ["Q0", "Q1", "Q2", "Q3"] "Gc4")),
   ("1Q-SRB", .simul srbSim)]

/-- Outcome data attaching counts to every circuit. -/
def dataEx : Circuit → Option Counts :=
  fun _ => some [([("Q0", false), ("Q1", false), ("Q2", false), ("Q3", false)], 1000)]

/-- Concrete processor spec used by the sampler examples. -/
def psEx : ProcSpec :=
  ⟨["Q0", "Q1"], ["Gxpi2", "Gypi2"], [("Q0", "Q1")]⟩

/-- First copy of a concrete sampler input. -/
def inpEx1 : SamplerInput :=
  ⟨psEx, 3, ["Q0", "Q1"], .edgegrab, [1/2], 42⟩

/-- Second, independently written copy of the same sampler input. -/
def inpEx2 : SamplerInput :=
  ⟨⟨["Q0", "Q1"], ["Gxpi2", "Gypi2"], [("Q0", "Q1")]⟩, 3, ["Q0", "Q1"],
   .edgegrab, [1/2], 42⟩

/-- A concrete family of randomized compilations of one Clifford element. -/
def compileOnceEx (i : Nat) : Compilation :=
  List.replicate (3 - i) (Gate.mk "Gxpi2" ["Q0"])

/-- A concrete flat label tuple in which every label has a default. -/
def sslArgEx : LabelsArg :=
  .flat [SSLabel.str "Q0", SSLabel.str "Q1", SSLabel.int 2, SSLabel.str "Leak"]

theorem restrictLayer_union_left (L1 L2 : Layer) (Q1 Q2 : Finset Qubit)
    (h1 : ∀ g ∈ L1, g.qubits.toFinset ⊆ Q1)
    (h2 : ∀ g ∈ L2, g.qubits ≠ [] ∧ g.qubits.toFinset ⊆ Q2)
    (hd : Disjoint Q1 Q2) :
    restrictLayer (L1 ∪ L2) Q1 = L1 := by
  ext g
  simp only [restrictLayer, Finset.mem_filter, Finset.mem_union]
  constructor
  · rintro ⟨hg | hg, hsub⟩
    · exact hg
    · exfalso
      obtain ⟨hne, hq2⟩ := h2 g hg
      have : g.qubits.toFinset = ∅ :=
        Finset.subset_empty.mp ((Finset.subset_inter hsub hq2).trans
          (by simpa [Finset.disjoint_iff_inter_eq_empty] using hd))
      exact hne (List.toFinset_eq_empty_iff _ |>.mp this)
  · intro hg
    exact ⟨Or.inl hg, h1 g hg⟩

theorem restrict_merge_left (c1 c2 : Circuit) (h1 : c1.wf) (h2 : c2.wf)
    (hd : Disjoint c1.qubits c2.qubits) :
    (mergeCircuit c1 c2).restrict c1.qubits c1.layers.length = c1 := by
  obtain ⟨Q1, ls1⟩ := c1
  obtain ⟨Q2, ls2⟩ := c2
  simp only [Circuit.restrict, mergeCircuit, Circuit.mk.injEq]
  refine ⟨trivial, ?_⟩
  set m := max ls1.length ls2.length with hm
  have hlen1 : ls1.length ≤ m := le_max_left _ _
  have hpad1 : (padLayers ls1 m).length = m := by
    simp [padLayers, Nat.add_sub_cancel' hlen1]
  have hpad2 : (padLayers ls2 m).length = m := by
    simp [padLayers, Nat.add_sub_cancel' (le_max_right ls1.length ls2.length)]
  apply List.ext_getElem
  · simp [hpad1, hpad2, hlen1]
  · intro i hi hi2
    have him : i < m := lt_of_lt_of_le hi2 hlen1
    have hb1 : i < (padLayers ls1 m).length := by rw [hpad1]; exact him
    have hb2 : i < (padLayers ls2 m).length := by rw [hpad2]; exact him
    rw [List.getElem_map, List.getElem_take, List.getElem_zipWith]
    have hget1 : (padLayers ls1 m)[i] = ls1[i] := by
      simp [padLayers, List.getElem_append_left, hi2]
    rw [hget1]
    by_cases hcase : i < ls2.length
    · have hget2 : (padLayers ls2 m)[i] = ls2[i] := by
        simp [padLayers, List.getElem_append_left, hcase]
      rw [hget2]
      exact restrictLayer_union_left _ _ Q1 Q2
        (fun g hg => (h1 _ (List.getElem_mem hi2) g hg).2)
        (fun g hg => h2 _ (List.getElem_mem hcase) g hg) hd
    · have hget2 : (padLayers ls2 m)[i] = (∅ : Layer) := by
        simp only [padLayers]
        rw [List.getElem_append_right (by omega)]
        simp
      rw [hget2]
      exact restrictLayer_union_left _ _ Q1 Q2
        (fun g hg => (h1 _ (List.getElem_mem hi2) g hg).2)
        (fun g hg => absurd hg (Finset.not_mem_empty g)) hd

/-- C1: for pairwise-disjoint leaf designs A and B, the merged circuit of
Simultaneous([A,B]) at composition index i, restricted to A's qubits and
ignoring the padding layers, equals A's circuit at index i. -/
theorem simultaneous_merged_restricts_to_child (A B : Leaf) (hA : A.wf) (hB : B.wf)
    (hd : A.qubits.Disjoint B.qubits) (D : SimDesign)
    (hmk : mkSimultaneous [A, B] = .ok D) (i : Nat) (hi : i < D.merged.length) :
    ∃ hi2 : i < A.circuits.length,
      (D.merged.get ⟨i, hi⟩).restrict A.qubits.toFinset
          ((A.circuits.get ⟨i, hi2⟩).layers.length)
        = A.circuits.get ⟨i, hi2⟩ := by
  have hpw : ([A, B].map Leaf.qubits).Pairwise List.Disjoint := by
    simp [List.pairwise_cons, hd]
  rw [mkSimultaneous, if_pos hpw] at hmk
  injection hmk with hmk2
  subst hmk2
  have hilen : i < (List.zipWith mergeCircuit A.circuits B.circuits).length := hi
  have hi1 : i < A.circuits.length := by
    rw [List.length_zipWith] at hilen
    exact lt_of_lt_of_le hilen (Nat.min_le_left _ _)
  have hiB : i < B.circuits.length := by
    rw [List.length_zipWith] at hilen
    exact lt_of_lt_of_le hilen (Nat.min_le_right _ _)
  refine ⟨hi1, ?_⟩
  show ((List.zipWith mergeCircuit A.circuits B.circuits).get ⟨i, hilen⟩).restrict
      A.qubits.toFinset
      ((A.circuits.get ⟨i, hi1⟩).layers.length) = A.circuits.get ⟨i, hi1⟩
  have hget : (List.zipWith mergeCircuit A.circuits B.circuits).get ⟨i, hilen⟩
      = mergeCircuit (A.circuits.get ⟨i, hi1⟩) (B.circuits.get ⟨i, hiB⟩) := by
    simp only [List.get_eq_getElem]
    exact List.getElem_zipWith
  rw [hget]
  obtain ⟨hqA, hwA⟩ := hA _ (List.get_mem A.circuits _ _)
  obtain ⟨hqB, hwB⟩ := hB _ (List.get_mem B.circuits _ _)
  have := restrict_merge_left (A.circuits.get ⟨i, hi1⟩) (B.circuits.get ⟨i, hiB⟩)
    hwA hwB (by
      rw [hqA, hqB]
      exact List.disjoint_toFinset_iff_disjoint.mpr hd)
  rwa [hqA] at this

theorem simultaneous_merged_restricts_to_child_witness :
    ∃ D, mkSimultaneous [leafAEx, leafBEx] = .ok D ∧
      ∃ hi : 0 < D.merged.length, ∃ hi2 : 0 < leafAEx.circuits.length,
        (D.merged.get ⟨0, hi⟩).restrict leafAEx.qubits.toFinset
            ((leafAEx.circuits.get ⟨0, hi2⟩).layers.length)
          = leafAEx.circuits.get ⟨0, hi2⟩ := by
  have hmk : mkSimultaneous [leafAEx, leafBEx]
      = .ok ⟨[(simKey leafAEx, leafAEx), (simKey leafBEx, leafBEx)],
             simulMergeList [leafAEx, leafBEx]⟩ := by
    rw [mkSimultaneous, if_pos (by decide)]
    rfl
  refine ⟨_, hmk, ?_⟩
  have hi : (0 : Nat) < (simulMergeList [leafAEx, leafBEx]).length := by decide
  exact ⟨hi, simultaneous_merged_restricts_to_child leafAEx leafBEx (by decide)
    (by decide) (by decide) _ hmk 0 hi⟩

/-- C6: constructing a Simultaneous design succeeds exactly when the
children's qubit subsets are pairwise disjoint; otherwise it fails with a
ConfigurationError raised at construction and no partial design object is
returned. -/
theorem mkSimultaneous_disjointness_check (ls : List Leaf) :
    ((ls.map Leaf.qubits).Pairwise List.Disjoint →
        mkSimultaneous ls
          = .ok ⟨ls.map (fun l => (simKey l, l)), simulMergeList ls⟩) ∧
    (¬ (ls.map Leaf.qubits).Pairwise List.Disjoint →
        mkSimultaneous ls = .error ConfigError.nonDisjointQubits) := by
  constructor
  · intro h
    rw [mkSimultaneous, if_pos h]
  · intro h
    rw [mkSimultaneous, if_neg h]

/-- C4: with the randomize-output flag disabled, the Clifford-group sampler
draws `d + 2` elements of the Clifford group and their exact group product
is the identity element, for every depth `d` and every stream of draws. -/
theorem cliffordRB_product_identity {G : Type} [Group G] (draw : Nat → G) (d : Nat) :
    (cliffordRBSample draw d false).length = d + 2 ∧
      (cliffordRBSample draw d false).prod = 1 := by
  constructor
  · simp [cliffordRBSample]
  · simp [cliffordRBSample]

/-- C5: the circuit sampler is a pure function of (processor spec, depth,
qubit subset, sampler kind, sampler parameters, seed): identical inputs
yield identical circuits and targets. -/
theorem sampler_deterministic (i1 i2 : SamplerInput) (h : i1 = i2) :
    sampleCircuit i1 = sampleCircuit i2 := by
  rw [h]

theorem sampler_deterministic_witness :
    sampleCircuit inpEx1 = sampleCircuit inpEx2 :=
  sampler_deterministic inpEx1 inpEx2 rfl

theorem toFinset_flatMap_foldr (children : List (String × SubDesign)) :
    (children.flatMap (fun kv : String × SubDesign => kv.2.circuits)).toFinset
      = (children.map (fun kv : String × SubDesign => kv.2.circuits.toFinset)).foldr
          (· ∪ ·) (∅ : Finset Circuit) := by
  induction children with
  | nil => simp
  | cons a l ih => simp [List.toFinset_append, ih]

/-- C3: the deduplicated flat circuit pool of a Combined design has no
duplicate entries and its size equals the cardinality of the set union of
the children's circuit sets, not the sum of their sizes; a circuit sampled
with identical content by two children is stored once. -/
theorem combined_pool_size_eq_union_card (d : CombinedDesign) :
    d.pool.Nodup ∧
    d.pool.length
      = ((d.children.map (fun kv : String × SubDesign => kv.2.circuits.toFinset)).foldr
          (· ∪ ·) (∅ : Finset Circuit)).card := by
  refine ⟨List.nodup_dedup _, ?_⟩
  rw [CombinedDesign.pool, ← toFinset_flatMap_foldr, List.card_toFinset]

theorem foldlBestMin_mem {α : Type} (key : α → Nat) (c : α) (rest : List α) :
    rest.foldl (fun best c2 => if key c2 < key best then c2 else best) c ∈ c :: rest := by
  induction rest generalizing c with
  | nil => simp
  | cons d ds ih =>
    simp only [List.foldl_cons]
    rcases List.mem_cons.mp (ih (if key d < key c then d else c)) with h | h
    · rw [h]
      by_cases hd : key d < key c <;> simp [hd]
    · exact List.mem_cons_of_mem _ (List.mem_cons_of_mem _ h)

theorem foldlBestMin_le {α : Type} (key : α → Nat) (c : α) (rest : List α) :
    ∀ x ∈ c :: rest,
      key (rest.foldl (fun best c2 => if key c2 < key best then c2 else best) c)
        ≤ key x := by
  induction rest generalizing c with
  | nil =>
    intro x hx
    simp only [List.mem_singleton] at hx
    subst hx
    simp
  | cons d ds ih =>
    intro x hx
    simp only [List.foldl_cons]
    have hsc : key (if key d < key c then d else c) ≤ key c := by split <;> omega
    have hsd : key (if key d < key c then d else c) ≤ key d := by split <;> omega
    rcases List.mem_cons.mp hx with h | h
    · rw [h]
      exact le_trans (ih _ _ (List.mem_cons_self _ _)) hsc
    · rcases List.mem_cons.mp h with h2 | h2
      · rw [h2]
        exact le_trans (ih _ _ (List.mem_cons_self _ _)) hsd
      · exact ih _ x (List.mem_cons_of_mem _ h2)

/-- C8: when the compilation iteration count is greater than 1 the compiler
produces exactly that many independent randomized compilations of the
element and keeps the best one according to the comparison key, whose
default selects the compilation with the fewest native gates. -/
theorem compileBest_keeps_best (f : Nat → Compilation) (key : Compilation → Nat)
    (n : Nat) (h : 1 < n) :
    ((List.range n).map f).length = n ∧
    compileBest f n key ∈ (List.range n).map f ∧
    (∀ c ∈ (List.range n).map f, key (compileBest f n key) ≤ key c) ∧
    ∀ c : Compilation, defaultCompileKey c = c.length := by
  have hne : (List.range n).map f ≠ [] := by
    simp only [ne_eq, List.map_eq_nil_iff, List.range_eq_nil]
    omega
  obtain ⟨c, rest, heq⟩ := List.exists_cons_of_ne_nil hne
  have hcb : compileBest f n key
      = rest.foldl (fun best c2 => if key c2 < key best then c2 else best) c := by
    unfold compileBest
    rw [heq]
  refine ⟨by simp, ?_, ?_, fun c => rfl⟩
  · rw [hcb, heq]
    exact foldlBestMin_mem key c rest
  · intro x hx
    rw [hcb]
    apply foldlBestMin_le
    rw [heq] at hx
    exact hx

theorem compileBest_keeps_best_witness :
    ((List.range 3).map compileOnceEx).length = 3 ∧
    compileBest compileOnceEx 3 defaultCompileKey ∈ (List.range 3).map compileOnceEx ∧
    (∀ c ∈ (List.range 3).map compileOnceEx,
        defaultCompileKey (compileBest compileOnceEx 3 defaultCompileKey)
          ≤ defaultCompileKey c) ∧
    ∀ c : Compilation, defaultCompileKey c = c.length :=
  compileBest_keeps_best compileOnceEx defaultCompileKey 3 (by decide)

theorem selectEdges_zero_empty (m : List (Qubit × Qubit)) (seed : Nat) :
    selectEdges m 0 seed = [] := by
  simp only [selectEdges]
  rw [List.filterMap_eq_nil_iff]
  intro je hje
  have hnlt : ¬ ((rnd seed je.1 % 1000 : Nat) : ℚ) < 0 * 1000 := by simp
  simp [hnlt]

theorem edgegrabLayer_zero_single (ps : ProcSpec) (q : Qubit) (seed : Nat) :
    ∀ g ∈ edgegrabLayer ps [q] 0 seed, g.qubits = [q] := by
  intro g hg
  simp only [edgegrabLayer, selectEdges_zero_empty] at hg
  simp [List.enum] at hg
  rw [hg]

/-- C9: on a single-qubit subset the edgegrab sampler with requested
two-qubit-gate density zero succeeds at every depth, producing layers made
only of single-qubit gates on that qubit; a SamplingError arises only when
the requested density is strictly positive on a subset whose connectivity
cannot support it. -/
theorem edgegrab_zero_density_single_qubit (ps : ProcSpec) (depth seed : Nat)
    (q : Qubit) (subset : List Qubit) (density : ℚ)
    (hs : subset = [q]) (hdens : density = 0) :
    (∃ c, edgegrab ps depth subset density seed = .ok c ∧
        c.qubits = {q} ∧ ∀ L ∈ c.layers, ∀ g ∈ L, g.qubits = [q]) ∧
    ∀ subset2 density2 seed2 e,
      edgegrab ps depth subset2 density2 seed2 = .error e →
        0 < density2 ∧ internalEdges ps subset2 = [] := by
  subst hs hdens
  constructor
  · refine ⟨⟨[q].toFinset,
            (List.range depth).map (fun t => edgegrabLayer ps [q] 0 (rnd seed t))⟩,
            ?_, ?_, ?_⟩
    · rw [edgegrab, if_neg (by simp)]
    · simp
    · intro L hL g hg
      simp only [List.mem_map, List.mem_range] at hL
      obtain ⟨t, _, rfl⟩ := hL
      exact edgegrabLayer_zero_single ps q _ g hg
  · intro subset2 density2 seed2 e he
    rw [edgegrab] at he
    by_cases hcond : 0 < density2 ∧ internalEdges ps subset2 = []
    · exact hcond
    · rw [if_neg hcond] at he
      exact Except.noConfusion he

theorem edgegrab_zero_density_single_qubit_witness :
    (∃ c, edgegrab psEx 2 ["Q0"] 0 5 = .ok c ∧
        c.qubits = {"Q0"} ∧ ∀ L ∈ c.layers, ∀ g ∈ L, g.qubits = ["Q0"]) ∧
    ∀ subset2 density2 seed2 e,
      edgegrab psEx 2 subset2 density2 seed2 = .error e →
        0 < density2 ∧ internalEdges psEx subset2 = [] :=
  edgegrab_zero_density_single_qubit psEx 2 5 "Q0" ["Q0"] 0 rfl rfl

theorem defaultDim_getD_eq_spec (l : SSLabel) :
    (defaultDim l).getD 0 = specDefaultDim l := by
  cases l with
  | int k => rfl
  | str s =>
    by_cases h1 : s.data.head? = some 'Q'
    · simp [defaultDim, specDefaultDim, h1]
    · by_cases h2 : s.data.head? = some 'L'
      · simp [defaultDim, specDefaultDim, h1, h2]
      · simp [defaultDim, specDefaultDim, h1, h2]

/-- C10: when every label has a default dimension the dimensions argument
may be omitted and the defaults are applied (integer labels and labels
beginning with 'Q' are assigned dimension 2, labels beginning with 'L'
dimension 1); and constructing from a flat tuple yields the same object as
constructing from the single-element list holding that tuple. -/
theorem stateSpaceLabels_defaults (arg : LabelsArg)
    (hdef : ∀ b ∈ arg.toBlocks, ∀ l ∈ b, (defaultDim l).isSome) :
    (∃ ssl, mkStateSpaceLabels arg none = some ssl ∧
        ssl.labels = arg.toBlocks ∧
        ssl.labeldims = arg.toBlocks.map (fun b => b.map specDefaultDim)) ∧
    ∀ (ls : List SSLabel) (dims : Option (List (List Nat))),
      mkStateSpaceLabels (.flat ls) dims = mkStateSpaceLabels (.nested [ls]) dims := by
  constructor
  · have hall : arg.toBlocks.all (fun b => b.all (fun l => (defaultDim l).isSome)) = true := by
      rw [List.all_eq_true]
      intro b hb
      rw [List.all_eq_true]
      intro l hl
      exact hdef b hb l hl
    refine ⟨⟨arg.toBlocks,
             arg.toBlocks.map (fun b => b.map (fun l => (defaultDim l).getD 0))⟩,
            ?_, rfl, ?_⟩
    · simp [mkStateSpaceLabels, hall]
    · simp only [defaultDim_getD_eq_spec]
  · intro ls dims
    rfl

theorem exceptMap_eq_ok {ε α β : Type} (x : Except ε α) (f : α → β) (b : β) :
    x.map f = Except.ok b ↔ ∃ a, x = Except.ok a ∧ f a = b := by
  cases x <;> simp [Except.map]

theorem exceptMap_eq_error {ε α β : Type} (x : Except ε α) (f : α → β) (e : ε) :
    x.map f = Except.error e ↔ x = Except.error e := by
  cases x <;> simp [Except.map]

theorem exceptMap_exists_ok {ε α β : Type} (x : Except ε α) (f : α → β) :
    (∃ b, x.map f = Except.ok b) ↔ ∃ a, x = Except.ok a := by
  cases x <;> simp [Except.map]

theorem collectCounts_ok_iff (path : List ResKey) (data : Circuit → Option Counts)
    (cs : List Circuit) :
    (∃ r, collectCounts path data cs = .ok r) ↔ ∀ c ∈ cs, (data c).isSome := by
  induction cs with
  | nil => exact iff_of_true ⟨[], rfl⟩ (by simp)
  | cons c rest ih =>
    simp only [collectCounts, List.forall_mem_cons]
    cases hdc : data c with
    | none =>
      apply iff_of_false
      · rintro ⟨r, hr⟩
        exact Except.noConfusion hr
      · rintro ⟨h1, _⟩
        simp at h1
    | some cnt =>
      constructor
      · rintro ⟨r, hr⟩
        rw [exceptMap_eq_ok] at hr
        obtain ⟨a, ha, _⟩ := hr
        exact ⟨by simp, ih.mp ⟨a, ha⟩⟩
      · rintro ⟨_, hrest⟩
        obtain ⟨a, ha⟩ := ih.mpr hrest
        exact ⟨(c, cnt) :: a, by rw [exceptMap_eq_ok]; exact ⟨a, ha, rfl⟩⟩

theorem collectCounts_error_iff (path : List ResKey) (data : Circuit → Option Counts)
    (cs : List Circuit) (e : MissingDataError) :
    collectCounts path data cs = .error e
      ↔ e.path = path ∧ cs.find? (fun c => (data c).isNone) = some e.circuit := by
  obtain ⟨ep, ec⟩ := e
  induction cs with
  | nil => simp [collectCounts]
  | cons c rest ih =>
    simp only [collectCounts]
    cases hdc : data c with
    | none =>
      rw [List.find?_cons_of_pos _ (by simp [hdc])]
      constructor
      · intro h
        injection h with h2
        injection h2 with hp hc
        exact ⟨hp.symm, by rw [hc]⟩
      · rintro ⟨hp, hc⟩
        injection hc with hc2
        rw [hp, ← hc2]
    | some cnt =>
      rw [List.find?_cons_of_neg _ (by simp [hdc])]
      rw [exceptMap_eq_error]
      exact ih

theorem subresults_ok_iff (data : Circuit → Option Counts) (path : List ResKey)
    (sd : SubDesign) :
    (∃ r, sd.results data path = .ok r) ↔ ∀ c ∈ sd.circuits, (data c).isSome := by
  cases sd <;> simp only [SubDesign.results, SubDesign.circuits] <;>
    rw [exceptMap_exists_ok, collectCounts_ok_iff]

theorem subresults_error_iff (data : Circuit → Option Counts) (path : List ResKey)
    (sd : SubDesign) (e : MissingDataError) :
    sd.results data path = .error e
      ↔ e.path = path ∧ sd.circuits.find? (fun c => (data c).isNone) = some e.circuit := by
  cases sd <;> simp only [SubDesign.results, SubDesign.circuits] <;>
    rw [exceptMap_eq_error, collectCounts_error_iff]

theorem combineResults_ok_iff (data : Circuit → Option Counts)
    (children : List (String × SubDesign)) :
    (∃ rs, combineResults data children = .ok rs)
      ↔ ∀ kv ∈ children, ∀ c ∈ kv.2.circuits, (data c).isSome := by
  induction children with
  | nil => exact iff_of_true ⟨[], rfl⟩ (by simp)
  | cons a rest ih =>
    obtain ⟨k, sd⟩ := a
    simp only [combineResults, List.forall_mem_cons]
    cases h1 : sd.results data [ResKey.str k] with
    | error e =>
      apply iff_of_false
      · rintro ⟨rs, hrs⟩
        exact Except.noConfusion hrs
      · rintro ⟨hfst, _⟩
        obtain ⟨r, hr⟩ := (subresults_ok_iff data [ResKey.str k] sd).mpr hfst
        rw [h1] at hr
        exact Except.noConfusion hr
    | ok r =>
      cases h2 : combineResults data rest with
      | error e2 =>
        apply iff_of_false
        · rintro ⟨rs, hrs⟩
          exact Except.noConfusion hrs
        · rintro ⟨_, hrest⟩
          obtain ⟨rs, hrs⟩ := ih.mpr hrest
          rw [h2] at hrs
          exact Except.noConfusion hrs
      | ok rs =>
        apply iff_of_true
        · exact ⟨_, rfl⟩
        · exact ⟨(subresults_ok_iff data [ResKey.str k] sd).mp ⟨r, h1⟩,
                 ih.mp ⟨rs, h2⟩⟩

theorem combineResults_error_iff (data : Circuit → Option Counts)
    (children : List (String × SubDesign)) (e : MissingDataError) :
    combineResults data children = .error e
      ↔ (children.flatMap (fun kv : String × SubDesign =>
            kv.2.circuits.map (fun c => ([ResKey.str kv.1], c)))).find?
          (fun pc => (data pc.2).isNone) = some (e.path, e.circuit) := by
  obtain ⟨ep, ec⟩ := e
  induction children with
  | nil => simp [combineResults]
  | cons a rest ih =>
    obtain ⟨k, sd⟩ := a
    simp only [combineResults, List.flatMap_cons, List.find?_append, List.find?_map]
    have hcomp : ((fun pc : List ResKey × Circuit => (data pc.2).isNone)
        ∘ fun c => ([ResKey.str k], c)) = fun c => (data c).isNone := rfl
    rw [hcomp]
    cases h1 : sd.results data [ResKey.str k] with
    | error e1 =>
      obtain ⟨e1p, e1c⟩ := e1
      obtain ⟨hep, hfind⟩ :=
        (subresults_error_iff data [ResKey.str k] sd ⟨e1p, e1c⟩).mp h1
      rw [hfind]
      rw [show e1p = [ResKey.str k] from hep]
      simp only [Option.map_some', Option.or_some, Except.error.injEq,
        MissingDataError.mk.injEq, Option.some.injEq, Prod.mk.injEq]
    | ok r =>
      have hall := (subresults_ok_iff data [ResKey.str k] sd).mp ⟨r, h1⟩
      have hfind : sd.circuits.find? (fun c => (data c).isNone) = none := by
        rw [List.find?_eq_none]
        intro x hx
        have hs := hall x hx
        cases hdx : data x with
        | none => rw [hdx] at hs; simp at hs
        | some v => simp [hdx]
      rw [hfind]
      simp only [Option.map_none', Option.none_or]
      cases h2 : combineResults data rest with
      | error e2 =>
        constructor
        · intro h
          injection h with h2e
          rw [h2e] at h2
          exact ih.mp h2
        · intro h
          have hrest := ih.mpr h
          rw [h2] at hrest
          injection hrest with h2e
          rw [h2e]
      | ok rs =>
        apply iff_of_false
        · intro h
          exact Except.noConfusion h
        · intro h
          have hrest := ih.mpr h
          rw [h2] at hrest
          exact Except.noConfusion hrest

/-- C7: Results construction fails with a MissingDataError exactly when some
circuit in the flat pool lacks attached outcome counts, and the error names
the first circuit (in pool order) lacking data together with its owning
child's key path; with counts attached to every circuit it succeeds. -/
theorem results_missing_data (d : CombinedDesign) (data : Circuit → Option Counts) :
    ((∃ r, d.results data = .ok r) ↔ ∀ pc ∈ d.poolPaths, (data pc.2).isSome) ∧
    ∀ e, d.results data = .error e
      ↔ d.poolPaths.find? (fun pc => (data pc.2).isNone)
          = some (e.path, e.circuit) := by
  constructor
  · rw [show d.results data = (combineResults data d.children).map ResultsNode.node
        from rfl]
    rw [exceptMap_exists_ok, combineResults_ok_iff]
    constructor
    · intro h pc hpc
      simp only [CombinedDesign.poolPaths, List.mem_flatMap, List.mem_map] at hpc
      obtain ⟨kv, hkv, c, hc, rfl⟩ := hpc
      exact h kv hkv c hc
    · intro h kv hkv c hc
      exact h ([ResKey.str kv.1], c)
        (by simp only [CombinedDesign.poolPaths, List.mem_flatMap, List.mem_map]
            exact ⟨kv, hkv, c, hc, rfl⟩)
  · intro e
    rw [show d.results data = (combineResults data d.children).map ResultsNode.node
        from rfl]
    rw [exceptMap_eq_error, combineResults_error_iff]
    rfl

/-- C2: the Combined design of the multi-RB tutorial, built under the five
string keys with 1Q-SRB a Simultaneous design over the four single-qubit
subsets, reconstructs — once outcome data is attached to every circuit —
into a Results tree whose top-level keys are exactly the five strings and
whose 1Q-SRB subtree keys are exactly the four qubit-subset tuples. -/
theorem combined_results_key_roundtrip :
    mkSimultaneous oneQleaves = .ok srbSim ∧
    ∃ d r, mkCombined combChildrenEx = .ok d ∧
      d.results dataEx = .ok r ∧
      r.keys = [ResKey.str "1Q-RB", ResKey.str "2Q-RB", ResKey.str "3Q-RB",
                ResKey.str "4Q-RB", ResKey.str "1Q-SRB"] ∧
      ∃ sub, r.child? (ResKey.str "1Q-SRB") = some sub ∧
        sub.keys = [ResKey.qs ["Q0"], ResKey.qs ["Q1"], ResKey.qs ["Q2"],
                    ResKey.qs ["Q3"]] := by
  constructor
  · rw [mkSimultaneous, if_pos (by decide)]
    rfl
  · refine ⟨⟨combChildrenEx⟩, _, ?_, rfl, ?_, _, rfl, ?_⟩
    · rw [mkCombined, if_pos (by decide)]
    · decide
    · decide

theorem stateSpaceLabels_defaults_witness :
    (∃ ssl, mkStateSpaceLabels sslArgEx none = some ssl ∧
        ssl.labels = sslArgEx.toBlocks ∧
        ssl.labeldims = sslArgEx.toBlocks.map (fun b => b.map specDefaultDim)) ∧
    ∀ (ls : List SSLabel) (dims : Option (List (List Nat))),
      mkStateSpaceLabels (.flat ls) dims = mkStateSpaceLabels (.nested [ls]) dims :=
  stateSpaceLabels_defaults sslArgEx (by decide)

end PyGSTi
